import Mathlib

/-!
Verification of the word-grid generator (src/word_grid.cpp).

The development shallowly embeds the program: words are lists of
characters, the `unordered_set` containers are modelled as lists with
membership (and `dedup` where the set semantics matter), the recursive
backtracking search `find_grids` is embedded with an explicit fuel
argument equal to the remaining recursion depth (the C++ recursion
terminates because each call appends one row and stops at `height`
rows), and the fallible pieces (`parse_arguments` dimension validation,
dictionary I/O in `get_word_lists`, `main`) return `Option` / exit
codes.
-/

namespace WordGrid

/-- A word, as the character sequence of a C++ `std::string`. -/
abbrev Word := List Char

/-- The `Args` structure (dictionary filename omitted: the dictionary
contents are passed explicitly to the model of `get_word_lists`).
`width` and `height` are `Nat` because `parse_arguments` only returns
them when both are positive. -/
structure Args where
  use_apostrophe : Bool
  restrict_small_words : Bool
  width : Nat
  height : Nat
deriving DecidableEq

/-- The apostrophe character, code point 39. -/
def apostrophe : Char := Char.ofNat 39

/-- C `std::toupper` in the default locale, on the characters this
program can meet: maps a lowercase Latin letter to its uppercase form
and leaves every other character unchanged. -/
def toupper (c : Char) : Char :=
  if 'a' ≤ c ∧ c ≤ 'z' then Char.ofNat (c.toNat - 32) else c

/-- The per-character loop of `get_word_lists`: uppercase each
character in turn, reject the word when a character falls outside
`A`..`Z` or repeats an already `seen` character, and otherwise return
the uppercased word. -/
def process_chars (seen : List Char) : List Char → Option (List Char)
  | [] => some []
  | c :: rest =>
    let u := toupper c
    if u < 'A' ∨ 'Z' < u then none
    else if u ∈ seen then none
    else
      match process_chars (u :: seen) rest with
      | none => none
      | some us => some (u :: us)

/-- The fixed `legal_small_words` set from `get_word_lists`. -/
def legal_small_words : List Word :=
  ["A", "I",
   "AH", "AM", "AN", "AS", "AT", "BE", "BY", "DC", "DO",
   "DR", "EX", "GO", "HA", "HE", "HI", "HO", "IF", "IN", "IS",
   "IT", "LA", "LO", "MA", "ME", "MR", "MS", "MY", "NO", "OF",
   "OH", "OK", "ON", "OR", "OW", "OX", "PA", "PI", "SO", "ST",
   "TO", "UP", "US", "WE"].map String.toList

/-- Removal of every apostrophe character from a word
(`word.erase(std::remove(word.begin(), word.end(), '\''), ...)`). -/
def strip_apostrophes (w : Word) : Word :=
  w.filter (fun c => c ≠ apostrophe)

/-- The per-word filtering of `get_word_lists`: apostrophes are
stripped when `use_apostrophe` is TRUE (this is what the source does);
then the character loop runs, then the small-word restriction.
Returns the processed word, or `none` when the word is skipped. -/
def filter_word (args : Args) (w : Word) : Option Word :=
  let w1 := if args.use_apostrophe then strip_apostrophes w else w
  match process_chars [] w1 with
  | none => none
  | some u =>
    if args.restrict_small_words ∧ u.length ≤ 2 ∧ u ∉ legal_small_words then none
    else some u

/-- All dictionary lines that survive `filter_word`, in file order. -/
def filtered_words (args : Args) (dict : List Word) : List Word :=
  dict.filterMap (filter_word args)

/-- The `row_words` set (filtered words whose length equals `width`),
materialised as the sorted duplicate-free list `row_words_list` that
`get_word_lists` returns; `std::sort` on `std::string` is ascending
lexicographic order. -/
def row_words_list (args : Args) (dict : List Word) : List Word :=
  List.insertionSort (· ≤ ·)
    (((filtered_words args dict).filter
      (fun w => decide (w.length = args.width))).dedup)

/-- The `col_words` set: filtered words whose length equals `height`. -/
def col_words (args : Args) (dict : List Word) : List Word :=
  ((filtered_words args dict).filter
    (fun w => decide (w.length = args.height))).dedup

/-- The `col_prefixes` vector: `height` entries, entry `i` (0-based)
holding the prefixes `col.substr(0, i + 1)` of every column word. -/
def col_prefixes (args : Args) (dict : List Word) : List (List Word) :=
  (List.range args.height).map
    (fun i => (col_words args dict).map (fun w => w.take (i + 1)))

/-- `get_word_lists`: `none` models the dictionary stream failing to
open or failing mid-read (the two `std::system_error` paths); on a
successfully read stream the builder always returns a (possibly
empty) pair. -/
def get_word_lists (args : Args) (dict : Option (List Word)) :
    Option (List Word × List (List Word)) :=
  match dict with
  | none => none
  | some d => some (row_words_list args d, col_prefixes args d)

/-- The partial-column string at character position `i`: the loop
`for(row : rows) col += row[i]`. Out-of-range access (impossible in
reachable search states, see the safety theorem) is modelled by a
default character. -/
def colstr (rows : List Word) (i : Nat) : Word :=
  rows.map (fun r => r.getD i 'A')

/-- The column-viability check of `find_grids`: for every position `i`
of the candidate word, the partial column extended by `word[i]` must be
present in `col_prefixes[col.size() - 1]`. -/
def check_word (cps : List (List Word)) (rows : List Word) (w : Word) : Bool :=
  (List.range w.length).all (fun i =>
    let col := colstr rows i ++ [w.getD i 'A']
    decide (col ∈ cps.getD (col.length - 1) []))

/-- `std::find_first_of(try_word, word) != try_word.end()`: the
candidate shares at least one letter with the placed word. -/
def shares_letter (t w : Word) : Bool :=
  t.any (fun c => decide (c ∈ w))

/-- The candidate-list reduction of `find_grids`: erase every word
that shares a letter with the word just placed. -/
def reduce_list (wl : List Word) (w : Word) : List Word :=
  wl.filter (fun t => ! shares_letter t w)

/-- `find_grids`, with an explicit `fuel` argument equal to the
remaining recursion depth `height - rows.length` (the C++ recursion
needs no fuel because every reachable call has at most `height - 1`
placed rows). For every candidate in list order: if the column check
fails, skip it; if `rows.size() == height - 1`, emit the completed
grid; otherwise recurse on the reduced candidate list with the word
appended. -/
def find_grids_aux (cps : List (List Word)) (height : Nat) :
    Nat → List Word → List Word → List (List Word)
  | 0, _, _ => []
  | fuel + 1, wl, rows =>
    (wl.filter (fun w => check_word cps rows w)).flatMap (fun w =>
      if rows.length = height - 1 then [rows ++ [w]]
      else find_grids_aux cps height fuel (reduce_list wl w) (rows ++ [w]))

/-- The top-level call `find_grids(word_list, col_prefixes, height)`
with the default empty `rows`. -/
def find_grids (cps : List (List Word)) (height : Nat) (wl : List Word) :
    List (List Word) :=
  find_grids_aux cps height height wl []

/-- `main`: exit code 1 (`EXIT_FAILURE`) when argument parsing or the
word-list builder fails, exit code 0 (`EXIT_SUCCESS`) otherwise; the
grid search itself has no failure path. -/
def main_exit (parsed : Option Args) (dict : Option (List Word)) : Nat :=
  match parsed with
  | none => 1
  | some args =>
    match get_word_lists args dict with
    | none => 1
    | some _ => 0

/-- Wrap-around of a mathematical integer to the 32-bit signed range,
the behaviour of `int` multiplication on the reference platform
(signed overflow is undefined behaviour in C++; common implementations
wrap). -/
def to_int32 (n : Int) : Int := (n + 2 ^ 31) % 2 ^ 32 - 2 ^ 31

/-- The dimension validation at the end of `parse_arguments`: the two
values arrive from `std::stoi` (so each fits in `int`); reject a
non-positive width or height, then reject when `args.width *
args.height > 26`, the product being computed by `int`
multiplication. -/
def check_dims (width height : Int) : Option (Nat × Nat) :=
  if width ≤ 0 then none
  else if height ≤ 0 then none
  else if 26 < to_int32 (width * height) then none
  else some (width.toNat, height.toNat)

/-- `row[i]` with an explicit bounds check, for the safety model. -/
def get_col_opt (rows : List Word) (i : Nat) : Option (List Char) :=
  match rows with
  | [] => some []
  | r :: rest =>
    match r.get? i, get_col_opt rest i with
    | some c, some cs => some (c :: cs)
    | _, _ => none

/-- The column-viability check with every container access checked:
`none` signals an out-of-bounds access (`row[i]`, `word[i]`, or
`col_prefixes[col.size() - 1]`); `some b` is the checked result. -/
def check_cols_opt (cps : List (List Word)) (rows : List Word) (w : Word) :
    List Nat → Option Bool
  | [] => some true
  | i :: is =>
    match get_col_opt rows i with
    | none => none
    | some chars =>
      match w.get? i with
      | none => none
      | some wc =>
        let col := chars ++ [wc]
        match cps.get? (col.length - 1) with
        | none => none
        | some entry =>
          if col ∈ entry then check_cols_opt cps rows w is
          else some false

/-- `check_word` with every container access checked. -/
def check_word_opt (cps : List (List Word)) (rows : List Word) (w : Word) :
    Option Bool :=
  check_cols_opt cps rows w (List.range w.length)

/-- Sequencing of per-candidate results that propagates an
out-of-bounds marker. -/
def option_flat_map (f : α → Option (List β)) : List α → Option (List β)
  | [] => some []
  | a :: as =>
    match f a, option_flat_map f as with
    | some bs, some rest => some (bs ++ rest)
    | _, _ => none

/-- `find_grids_aux` with every container access checked: `none`
signals that some reachable call performed an out-of-bounds access. -/
def find_grids_opt (cps : List (List Word)) (height : Nat) :
    Nat → List Word → List Word → Option (List (List Word))
  | 0, _, _ => some []
  | fuel + 1, wl, rows =>
    option_flat_map (fun w =>
      match check_word_opt cps rows w with
      | none => none
      | some false => some []
      | some true =>
        if rows.length = height - 1 then some [rows ++ [w]]
        else find_grids_opt cps height fuel (reduce_list wl w) (rows ++ [w])) wl

/-- Concrete four-word dictionary used by the witnesses. -/
def dictD : List Word := ["ab", "cd", "ac", "bd"].map String.toList

/-- Concrete 2×2 configuration used by the witnesses (apostrophe
stripping on, small-word restriction off). -/
def argsD : Args := Args.mk true false 2 2

/-- Configuration with `use_apostrophe = false`, for the apostrophe
counterexample. -/
def argsN : Args := Args.mk false false 4 1

/-- Configuration with `use_apostrophe = true`, for the apostrophe
witness. -/
def argsY : Args := Args.mk true false 4 1

/-- The raw dictionary line DON'T. -/
def rawDONT : Word := ['D', 'O', 'N', apostrophe, 'T']

/-- Configuration with the small-word restriction on, width 2. -/
def argsXZ : Args := Args.mk true true 2 2

/-!
Support lemmas about the word filter.
-/

/-- A word the character loop accepts has pairwise-distinct characters,
none of them in `seen`, and all of them in `A`..`Z`. -/
theorem process_chars_sound (xs : List Char) : ∀ (seen u : List Char),
    process_chars seen xs = some u →
    u.Nodup ∧ (∀ c ∈ u, c ∉ seen) ∧ (∀ c ∈ u, 'A' ≤ c ∧ c ≤ 'Z') := by
  induction xs with
  | nil =>
    intro seen u h
    simp only [process_chars, Option.some.injEq] at h
    subst h
    simp
  | cons c rest ih =>
    intro seen u h
    simp only [process_chars] at h
    by_cases h1 : toupper c < 'A' ∨ 'Z' < toupper c
    · simp [h1] at h
    · rw [if_neg h1] at h
      by_cases h2 : toupper c ∈ seen
      · simp [h2] at h
      · rw [if_neg h2] at h
        cases hrec : process_chars (toupper c :: seen) rest with
        | none => rw [hrec] at h; exact absurd h (by simp)
        | some us =>
          rw [hrec] at h
          simp only [Option.some.injEq] at h
          subst h
          obtain ⟨hnd, hseen, hAZ⟩ := ih _ _ hrec
          push_neg at h1
          refine ⟨?_, ?_, ?_⟩
          · refine List.nodup_cons.mpr ⟨?_, hnd⟩
            intro hmem
            exact (hseen _ hmem) (List.mem_cons_self _ _)
          · intro d hd
            rcases List.mem_cons.mp hd with rfl | hd'
            · exact h2
            · intro hds
              exact (hseen _ hd') (List.mem_cons_of_mem _ hds)
          · intro d hd
            rcases List.mem_cons.mp hd with rfl | hd'
            · exact ⟨h1.1, h1.2⟩
            · exact hAZ _ hd'

/-- A word accepted by the filter has pairwise-distinct characters,
all of them uppercase Latin letters. -/
theorem filter_word_sound {args : Args} {raw u : Word}
    (h : filter_word args raw = some u) :
    u.Nodup ∧ ∀ c ∈ u, 'A' ≤ c ∧ c ≤ 'Z' := by
  simp only [filter_word] at h
  cases hp : process_chars []
      (if args.use_apostrophe then strip_apostrophes raw else raw) with
  | none => rw [hp] at h; exact absurd h (by simp)
  | some v =>
    rw [hp] at h
    dsimp only at h
    obtain ⟨hnd, _, hAZ⟩ := process_chars_sound _ _ _ hp
    by_cases hs : args.restrict_small_words ∧ v.length ≤ 2 ∧ v ∉ legal_small_words
    · rw [if_pos hs] at h; exact absurd h (by simp)
    · rw [if_neg hs] at h
      simp only [Option.some.injEq] at h
      subst h
      exact ⟨hnd, hAZ⟩

/-- A word of length at most two accepted by the filter while the
small-word restriction is on belongs to the allow-list. -/
theorem filter_word_small {args : Args} {raw u : Word}
    (h : filter_word args raw = some u)
    (h1 : args.restrict_small_words = true) (h2 : u.length ≤ 2) :
    u ∈ legal_small_words := by
  simp only [filter_word] at h
  cases hp : process_chars []
      (if args.use_apostrophe then strip_apostrophes raw else raw) with
  | none => rw [hp] at h; exact absurd h (by simp)
  | some v =>
    rw [hp] at h
    dsimp only at h
    by_cases hs : args.restrict_small_words ∧ v.length ≤ 2 ∧ v ∉ legal_small_words
    · rw [if_pos hs] at h; exact absurd h (by simp)
    · rw [if_neg hs] at h
      simp only [Option.some.injEq] at h
      subst h
      by_contra hu
      exact hs ⟨h1, h2, hu⟩

/-- Membership in the emitted row word list. -/
theorem mem_row_words {args : Args} {dict : List Word} {w : Word} :
    w ∈ row_words_list args dict ↔
      (∃ raw ∈ dict, filter_word args raw = some w) ∧ w.length = args.width := by
  simp [row_words_list, List.mem_insertionSort, List.mem_dedup, List.mem_filter,
    filtered_words, List.mem_filterMap]

/-- Membership in the transient column word set. -/
theorem mem_col_words {args : Args} {dict : List Word} {w : Word} :
    w ∈ col_words args dict ↔
      (∃ raw ∈ dict, filter_word args raw = some w) ∧ w.length = args.height := by
  simp [col_words, List.mem_dedup, List.mem_filter, filtered_words,
    List.mem_filterMap]

/-- Entry `L` (0-based) of the prefix index, for `L < height`. -/
theorem col_prefixes_getD {args : Args} {dict : List Word} {L : Nat}
    (hL : L < args.height) :
    (col_prefixes args dict).getD L [] =
      (col_words args dict).map (fun w => w.take (L + 1)) := by
  simp [col_prefixes, List.getD_eq_getElem?_getD, List.getElem?_map,
    List.getElem?_range hL]

/-- Every row word has length `width`. -/
theorem row_words_length {args : Args} {dict : List Word} {w : Word}
    (h : w ∈ row_words_list args dict) : w.length = args.width :=
  (mem_row_words.mp h).2

/-- Every row word has pairwise-distinct characters. -/
theorem row_words_nodup_chars {args : Args} {dict : List Word} {w : Word}
    (h : w ∈ row_words_list args dict) : w.Nodup := by
  obtain ⟨⟨raw, _, hr⟩, _⟩ := mem_row_words.mp h
  exact (filter_word_sound hr).1

/-!
Support lemmas about the search.
-/

/-- The column check spelt out: the partial column at every position of
the candidate word must sit in prefix entry `rows.length` (0-based). -/
theorem check_word_spec {cps : List (List Word)} {rows : List Word} {w : Word} :
    check_word cps rows w = true ↔
      ∀ i < w.length,
        colstr rows i ++ [w.getD i 'A'] ∈ cps.getD rows.length [] := by
  simp [check_word, List.all_eq_true, List.mem_range, colstr]

/-- Membership in the candidate list after reduction. -/
theorem mem_reduce_list {wl : List Word} {w t : Word} :
    t ∈ reduce_list wl w ↔ t ∈ wl ∧ ∀ c ∈ t, c ∉ w := by
  simp [reduce_list, List.mem_filter, shares_letter]

/-- One unfolding step of the search at positive fuel: a grid is
produced by some candidate that passes the column check and either
completes the grid or leads to it recursively. -/
theorem mem_find_grids_aux_succ {cps : List (List Word)} {height fuel : Nat}
    {wl rows : List Word} {g : List Word} :
    g ∈ find_grids_aux cps height (fuel + 1) wl rows ↔
      ∃ w ∈ wl, check_word cps rows w = true ∧
        ((rows.length = height - 1 ∧ g = rows ++ [w]) ∨
         (rows.length ≠ height - 1 ∧
           g ∈ find_grids_aux cps height fuel (reduce_list wl w) (rows ++ [w]))) := by
  simp only [find_grids_aux, List.mem_flatMap, List.mem_filter]
  constructor
  · rintro ⟨w, ⟨hw, hcw⟩, hg⟩
    by_cases hd : rows.length = height - 1
    · rw [if_pos hd] at hg
      simp only [List.mem_singleton] at hg
      exact ⟨w, hw, hcw, Or.inl ⟨hd, hg⟩⟩
    · rw [if_neg hd] at hg
      exact ⟨w, hw, hcw, Or.inr ⟨hd, hg⟩⟩
  · rintro ⟨w, hw, hcw, (⟨hd, rfl⟩ | ⟨hd, hg⟩)⟩
    · exact ⟨w, ⟨hw, hcw⟩, by rw [if_pos hd]; simp⟩
    · exact ⟨w, ⟨hw, hcw⟩, by rw [if_neg hd]; exact hg⟩

/-- Every grid the search produces extends the placed rows by a word
taken from the current candidate list. -/
theorem find_grids_aux_shape {cps : List (List Word)} {height : Nat} :
    ∀ fuel (wl rows : List Word) (g : List Word),
      g ∈ find_grids_aux cps height fuel wl rows →
      ∃ w t, w ∈ wl ∧ g = rows ++ w :: t := by
  intro fuel
  induction fuel with
  | zero => intro wl rows g hg; exact absurd hg (by simp [find_grids_aux])
  | succ fuel ih =>
    intro wl rows g hg
    obtain ⟨w, hw, _, (⟨_, rfl⟩ | ⟨_, hg'⟩)⟩ := mem_find_grids_aux_succ.mp hg
    · exact ⟨w, [], hw, rfl⟩
    · obtain ⟨w', t', _, ht⟩ := ih _ _ _ hg'
      exact ⟨w, w' :: t', hw, by simp [ht]⟩

/-- The fuel argument is irrelevant as long as it covers the remaining
recursion depth `height - rows.length`: the C++ recursion, which has no
fuel, computes this common value. -/
theorem find_grids_aux_fuel_irrel {cps : List (List Word)} {height : Nat} :
    ∀ f1 f2 (wl rows : List Word),
      rows.length < height → height ≤ rows.length + f1 →
      height ≤ rows.length + f2 →
      find_grids_aux cps height f1 wl rows = find_grids_aux cps height f2 wl rows := by
  intro f1
  induction f1 with
  | zero => intro f2 wl rows hlt h1 _; omega
  | succ a ih =>
    intro f2 wl rows hlt h1 h2
    cases f2 with
    | zero => omega
    | succ b =>
      simp only [find_grids_aux]
      apply List.flatMap_congr
      intro w _
      by_cases hd : rows.length = height - 1
      · rw [if_pos hd, if_pos hd]
      · rw [if_neg hd, if_neg hd]
        apply ih
        · simp only [List.length_append, List.length_singleton]; omega
        · simp only [List.length_append, List.length_singleton]; omega
        · simp only [List.length_append, List.length_singleton]; omega

/-- Soundness invariant of the search: every produced grid extends the
placed rows, reaches exactly `height` rows, draws all its rows from the
ambient word list, and its partial columns of every length beyond the
rows already placed pass the prefix index. -/
theorem find_grids_aux_sound {cps : List (List Word)} {height width : Nat}
    {WL0 : List Word} (h0 : ∀ w ∈ WL0, w.length = width) :
    ∀ fuel (wl rows : List Word) (g : List Word),
      (∀ w ∈ wl, w ∈ WL0) → (∀ r ∈ rows, r ∈ WL0) →
      rows.length + fuel = height →
      g ∈ find_grids_aux cps height fuel wl rows →
      (∀ r ∈ g, r ∈ WL0) ∧ g.length = height ∧
      (∃ t, g = rows ++ t) ∧
      (∀ i, i < width → ∀ L, rows.length < L → L ≤ height →
        (colstr g i).take L ∈ cps.getD (L - 1) []) := by
  intro fuel
  induction fuel with
  | zero => intro wl rows g _ _ _ hg; exact absurd hg (by simp [find_grids_aux])
  | succ fuel ih =>
    intro wl rows g hwl hrows hfuel hg
    obtain ⟨w, hw, hcw, hcase⟩ := mem_find_grids_aux_succ.mp hg
    have hwWL : w ∈ WL0 := hwl w hw
    have hwlen : w.length = width := h0 w hwWL
    have hrows2 : ∀ r ∈ rows ++ [w], r ∈ WL0 := by
      intro r hr
      rcases List.mem_append.mp hr with hr | hr
      · exact hrows r hr
      · rw [List.mem_singleton.mp hr]; exact hwWL
    rcases hcase with ⟨hd, rfl⟩ | ⟨hd, hg'⟩
    · have hlen : rows.length + 1 = height := by omega
      refine ⟨hrows2, by simp [hlen], ⟨[w], rfl⟩, ?_⟩
      intro i hi L hL1 hL2
      have hLeq : L = rows.length + 1 := by omega
      subst hLeq
      have hcol : colstr (rows ++ [w]) i = colstr rows i ++ [w.getD i 'A'] := by
        simp [colstr]
      have hclen : (colstr (rows ++ [w]) i).length = rows.length + 1 := by
        simp [colstr]
      rw [List.take_of_length_le (le_of_eq hclen), hcol, Nat.add_sub_cancel]
      exact check_word_spec.mp hcw i (by rw [hwlen]; exact hi)
    · have hlen' : (rows ++ [w]).length + fuel = height := by
        simp only [List.length_append, List.length_singleton]; omega
      have hwl' : ∀ t ∈ reduce_list wl w, t ∈ WL0 :=
        fun t ht => hwl t (mem_reduce_list.mp ht).1
      obtain ⟨m1, m2, ⟨t, ht⟩, m4⟩ := ih _ _ _ hwl' hrows2 hlen' hg'
      refine ⟨m1, m2, ⟨w :: t, by simp [ht]⟩, ?_⟩
      intro i hi L hL1 hL2
      by_cases hLc : rows.length + 1 < L
      · refine m4 i hi L ?_ hL2
        simp only [List.length_append, List.length_singleton]; omega
      · have hLeq : L = rows.length + 1 := by omega
        subst hLeq
        have htake : (colstr g i).take (rows.length + 1) =
            colstr rows i ++ [w.getD i 'A'] := by
          rw [ht, colstr, ← List.map_take]
          have htl : ((rows ++ [w]) ++ t).take (rows.length + 1) = rows ++ [w] := by
            have hl : (rows ++ [w]).length = rows.length + 1 := by simp
            rw [← hl, List.take_left]
          rw [htl]
          simp [colstr]
        rw [htake, Nat.add_sub_cancel]
        exact check_word_spec.mp hcw i (by rw [hwlen]; exact hi)

/-- Pairwise distinctness of all letters placed so far is preserved by
the search: every produced grid has pairwise-distinct letters, given
that every candidate word has distinct letters, the letters already
placed are distinct, and no candidate reuses a placed letter. -/
theorem find_grids_aux_letters {cps : List (List Word)} {height : Nat} :
    ∀ fuel (wl rows : List Word) (g : List Word),
      (∀ w ∈ wl, w.Nodup) → rows.flatten.Nodup →
      (∀ w ∈ wl, ∀ c ∈ w, c ∉ rows.flatten) →
      g ∈ find_grids_aux cps height fuel wl rows →
      g.flatten.Nodup := by
  intro fuel
  induction fuel with
  | zero => intro wl rows g _ _ _ hg; exact absurd hg (by simp [find_grids_aux])
  | succ fuel ih =>
    intro wl rows g hnd hrnd hdisj hg
    obtain ⟨w, hw, _, hcase⟩ := mem_find_grids_aux_succ.mp hg
    have happ : (rows ++ [w]).flatten.Nodup := by
      rw [List.flatten_append]
      simp only [List.flatten_cons, List.flatten_nil, List.append_nil]
      exact List.Nodup.append hrnd (hnd w hw)
        (fun c hc1 hc2 => hdisj w hw c hc2 hc1)
    rcases hcase with ⟨_, rfl⟩ | ⟨_, hg'⟩
    · exact happ
    · refine ih _ _ _ (fun t ht => hnd t (mem_reduce_list.mp ht).1) happ ?_ hg'
      intro t ht c hc
      obtain ⟨htwl, hcnot⟩ := mem_reduce_list.mp ht
      rw [List.flatten_append]
      simp only [List.flatten_cons, List.flatten_nil, List.append_nil]
      rw [List.mem_append]
      push_neg
      exact ⟨hdisj t htwl c hc, hcnot c hc⟩

/-!
The claim theorems. Each is stated over the embedded program defined
above; the concrete configurations `argsD`, `argsN`, `argsY`, `argsXZ`
and the dictionary `dictD` feed the witnesses.
-/

/-- Claim C1: every grid emitted by the search over the built indexes
draws each of its rows from the row word list, has exactly `height`
rows, and each of its columns, read top-to-bottom, has length `height`
with its length-`L` prefix a member of column-prefix entry `L` for
every `L` in `[1, height]`; in particular the full column is a
filtered dictionary word of length `height` (a member of the column
word set). -/
theorem find_grids_emits_valid_grids (args : Args) (dict : List Word)
    (g : List Word)
    (hg : g ∈ find_grids (col_prefixes args dict) args.height
            (row_words_list args dict)) :
    (∀ r ∈ g, r ∈ row_words_list args dict) ∧
    g.length = args.height ∧
    (∀ i, i < args.width →
      (colstr g i).length = args.height ∧
      (∀ L, 1 ≤ L → L ≤ args.height →
        (colstr g i).take L ∈ (col_prefixes args dict).getD (L - 1) []) ∧
      colstr g i ∈ col_words args dict) := by
  have hpos : 1 ≤ args.height := by
    by_contra hh
    have h0 : args.height = 0 := by omega
    rw [find_grids, h0] at hg
    exact absurd hg (by simp [find_grids_aux])
  have h0 : ∀ w ∈ row_words_list args dict, w.length = args.width :=
    fun w hw => row_words_length hw
  obtain ⟨m1, m2, _, m4⟩ :=
    find_grids_aux_sound h0
      args.height (row_words_list args dict) [] g
      (fun w hw => hw) (by simp) (by simp) hg
  refine ⟨m1, m2, ?_⟩
  intro i hi
  have hclen : (colstr g i).length = args.height := by simp [colstr, m2]
  refine ⟨hclen, ?_, ?_⟩
  · intro L hL1 hL2
    exact m4 i hi L (by simpa using hL1) hL2
  · have hh := m4 i hi args.height (by simpa using hpos) le_rfl
    rw [List.take_of_length_le (le_of_eq hclen),
      col_prefixes_getD (by omega)] at hh
    have heq : args.height - 1 + 1 = args.height := by omega
    rw [heq] at hh
    obtain ⟨cw, hcw1, hcw2⟩ := List.mem_map.mp hh
    have hcwlen : cw.take args.height = cw :=
      List.take_of_length_le (le_of_eq (mem_col_words.mp hcw1).2)
    rw [hcwlen] at hcw2
    rwa [← hcw2]

/-- Claim C1 witness: on the four-word dictionary the emitted grid
AB/CD has its first row in the row word list and its first column AC in
the column word set. -/
theorem find_grids_emits_valid_grids_witness :
    "AB".toList ∈ row_words_list argsD dictD ∧
    colstr ["AB".toList, "CD".toList] 0 ∈ col_words argsD dictD := by
  have h := find_grids_emits_valid_grids argsD dictD
      ["AB".toList, "CD".toList] (by decide)
  exact ⟨h.1 _ (by decide), (h.2.2 0 (by decide)).2.2⟩

/-- Claim C3: an emitted grid holds pairwise-distinct letters: its
flattened cell sequence has no duplicate, equivalently every single row
has distinct letters and any two distinct rows are letter-disjoint
(which covers any two distinct cell positions of the grid). -/
theorem find_grids_grid_letters_distinct (args : Args) (dict : List Word)
    (g : List Word)
    (hg : g ∈ find_grids (col_prefixes args dict) args.height
            (row_words_list args dict)) :
    g.flatten.Nodup ∧ (∀ r ∈ g, r.Nodup) ∧
    List.Pairwise (fun r1 r2 => ∀ c1 ∈ r1, ∀ c2 ∈ r2, c1 ≠ c2) g := by
  have hflat : g.flatten.Nodup :=
    find_grids_aux_letters args.height (row_words_list args dict) [] g
      (fun w hw => row_words_nodup_chars hw) (by simp) (by simp) hg
  have hp := List.pairwise_flatten.mp hflat
  exact ⟨hflat, fun r hr => hp.1 r hr, hp.2⟩

/-- Claim C3 witness: the concrete emitted grid AB/CD uses the letters
A, B, C, D once each. -/
theorem find_grids_grid_letters_distinct_witness :
    (["AB".toList, "CD".toList] : List Word).flatten.Nodup ∧
    (∀ r ∈ (["AB".toList, "CD".toList] : List Word), r.Nodup) ∧
    List.Pairwise (fun r1 r2 => ∀ c1 ∈ r1, ∀ c2 ∈ r2, c1 ≠ c2)
      (["AB".toList, "CD".toList] : List Word) :=
  find_grids_grid_letters_distinct argsD dictD _ (by decide)

/-- Claim C7: the search is a total function: any fuel bound of at
least `height` computes the same finite grid list as `find_grids`
(whose fuel is exactly `height`), because recursion only happens while
fewer than `height - 1` rows are placed and every recursive call places
one more row. -/
theorem find_grids_terminates (cps : List (List Word)) (height : Nat)
    (wl : List Word) (fuel : Nat) (h1 : 1 ≤ height) (h2 : height ≤ fuel) :
    find_grids_aux cps height fuel wl [] = find_grids cps height wl := by
  unfold find_grids
  exact find_grids_aux_fuel_irrel fuel height wl []
    (by simp only [List.length_nil]; omega)
    (by simp only [List.length_nil]; omega)
    (by simp only [List.length_nil]; omega)

/-- Claim C7 witness: with fuel 7 instead of the exact depth 2 the
search on the concrete inputs computes the same grids. -/
theorem find_grids_terminates_witness :
    find_grids_aux (col_prefixes argsD dictD) 2 7 (row_words_list argsD dictD) [] =
      find_grids (col_prefixes argsD dictD) 2 (row_words_list argsD dictD) :=
  find_grids_terminates (col_prefixes argsD dictD) 2 (row_words_list argsD dictD) 7
    (by decide) (by decide)

/-- The row word list is strictly sorted: sorted by the lexicographic
order and duplicate-free. -/
theorem row_words_sorted_lt (args : Args) (dict : List Word) :
    (row_words_list args dict).Sorted (· < ·) :=
  List.Sorted.lt_of_le (List.sorted_insertionSort _ _)
    (((List.perm_insertionSort (· ≤ ·) _).nodup_iff).mpr (List.nodup_dedup _))

/-- Every grid of a search branch starts with the placed rows followed
by the branch's word. -/
theorem find_grids_branch_shape {cps : List (List Word)} {height fuel : Nat}
    {wl rows : List Word} {w : Word} {g : List Word}
    (hg : g ∈ (if rows.length = height - 1 then [rows ++ [w]]
               else find_grids_aux cps height fuel (reduce_list wl w) (rows ++ [w]))) :
    ∃ t, g = rows ++ w :: t := by
  by_cases hd : rows.length = height - 1
  · rw [if_pos hd] at hg
    simp only [List.mem_singleton] at hg
    exact ⟨[], by simp [hg]⟩
  · rw [if_neg hd] at hg
    obtain ⟨w', t', _, ht⟩ := find_grids_aux_shape fuel _ _ _ hg
    exact ⟨w' :: t', by simp [ht]⟩

/-- Lexicographic comparison of two grids that agree on a common block
of rows and then diverge. -/
theorem grid_lt_of_row_lt {rows t1 t2 : List Word} {w1 w2 : Word}
    (h : w1 < w2) : rows ++ w1 :: t1 < rows ++ w2 :: t2 := by
  show List.Lex (· < ·) (rows ++ w1 :: t1) (rows ++ w2 :: t2)
  induction rows with
  | nil => exact List.Lex.rel h
  | cons r rs ih => exact List.Lex.cons ih

/-- The search maps a strictly sorted candidate list to a strictly
sorted grid sequence: within a branch by induction, and across two
branches because the grids start with the branch words in order. -/
theorem find_grids_aux_sorted {cps : List (List Word)} {height : Nat} :
    ∀ fuel (wl rows : List Word), wl.Sorted (· < ·) →
      (find_grids_aux cps height fuel wl rows).Sorted (· < ·) := by
  intro fuel
  induction fuel with
  | zero => intro wl rows _; simp [find_grids_aux]
  | succ fuel ih =>
    intro wl rows hs
    simp only [find_grids_aux, List.flatMap_def]
    unfold List.Sorted
    rw [List.pairwise_flatten]
    constructor
    · intro chunk hchunk
      obtain ⟨w, hwmem, rfl⟩ := List.mem_map.mp hchunk
      by_cases hd : rows.length = height - 1
      · rw [if_pos hd]; exact List.sorted_singleton _
      · rw [if_neg hd]
        exact ih _ _ (List.Sorted.filter _ hs)
    · rw [List.pairwise_map]
      have hps : List.Pairwise (· < ·)
          (wl.filter (fun w => check_word cps rows w)) :=
        List.Sorted.filter _ hs
      refine hps.imp ?_
      intro w1 w2 hlt g1 hg1 g2 hg2
      obtain ⟨t1, rfl⟩ := find_grids_branch_shape hg1
      obtain ⟨t2, rfl⟩ := find_grids_branch_shape hg2
      exact grid_lt_of_row_lt hlt

/-- Claim C2: the builder's row word list is exactly the
ascending-sorted duplicate-free list of the filtered dictionary words
of length `width`; the prefix index has `height` entries and entry `L`
(1-based), for every `L` in `[1, height]`, holds exactly the length-`L`
prefixes of the filtered dictionary words of length `height`; and every
accepted word consists of pairwise-distinct uppercase letters. -/
theorem get_word_lists_exact (args : Args) (dict : List Word) :
    (row_words_list args dict).Sorted (· ≤ ·) ∧
    (row_words_list args dict).Nodup ∧
    (∀ w, w ∈ row_words_list args dict ↔
      (∃ raw ∈ dict, filter_word args raw = some w) ∧ w.length = args.width) ∧
    (col_prefixes args dict).length = args.height ∧
    (∀ L p, 1 ≤ L → L ≤ args.height →
      (p ∈ (col_prefixes args dict).getD (L - 1) [] ↔
        ∃ w, (∃ raw ∈ dict, filter_word args raw = some w) ∧
          w.length = args.height ∧ p = w.take L)) ∧
    (∀ w ∈ row_words_list args dict, w.Nodup ∧ ∀ c ∈ w, 'A' ≤ c ∧ c ≤ 'Z') := by
  refine ⟨List.sorted_insertionSort (· ≤ ·) _,
    ((List.perm_insertionSort (· ≤ ·) _).nodup_iff).mpr (List.nodup_dedup _),
    fun w => mem_row_words, by simp [col_prefixes], ?_, ?_⟩
  · intro L p hL1 hL2
    rw [col_prefixes_getD (by omega)]
    have heq : L - 1 + 1 = L := by omega
    rw [heq]
    constructor
    · intro hp
      obtain ⟨cw, h1, h2⟩ := List.mem_map.mp hp
      obtain ⟨hraw, hlen⟩ := mem_col_words.mp h1
      exact ⟨cw, hraw, hlen, h2.symm⟩
    · rintro ⟨cw, hraw, hlen, rfl⟩
      exact List.mem_map.mpr ⟨cw, mem_col_words.mpr ⟨hraw, hlen⟩, rfl⟩
  · intro w hw
    obtain ⟨⟨raw, _, hr⟩, _⟩ := mem_row_words.mp hw
    exact filter_word_sound hr

/-- Claim C2 witness: on the concrete dictionary, AB (the uppercased
form of the line ab) is a row word, and AC is in prefix entry 2. -/
theorem get_word_lists_exact_witness :
    "AB".toList ∈ row_words_list argsD dictD ∧
    "AC".toList ∈ (col_prefixes argsD dictD).getD 1 [] := by
  have h := get_word_lists_exact argsD dictD
  refine ⟨(h.2.2.1 "AB".toList).mpr (by decide), ?_⟩
  exact (h.2.2.2.2.1 2 "AC".toList (by decide) (by decide)).mpr
    ⟨"AC".toList, by decide⟩

/-- Claim C4: the search is deterministic and enumerates solutions in
lexicographic-first depth-first order: candidate-list reduction keeps a
subsequence of the candidate list (so the relative order of survivors
is preserved, and sortedness with it), the emitted grid sequence is
strictly ascending in grid-lexicographic order whenever the candidate
list is sorted (as the builder's list is), and identical inputs give
the identical grid sequence. -/
theorem find_grids_deterministic_order (cps : List (List Word)) (height : Nat)
    (wl : List Word) (hs : wl.Sorted (· < ·)) :
    (∀ w, (reduce_list wl w).Sublist wl ∧ (reduce_list wl w).Sorted (· < ·)) ∧
    (find_grids cps height wl).Sorted (· < ·) ∧
    (∀ wl2, wl2 = wl → find_grids cps height wl2 = find_grids cps height wl) := by
  refine ⟨fun w => ⟨List.filter_sublist _, List.Sorted.filter _ hs⟩, ?_, ?_⟩
  · exact find_grids_aux_sorted height wl [] hs
  · rintro wl2 rfl; rfl

/-- Claim C4 witness: the two grids found on the concrete inputs come
out in ascending lexicographic order. -/
theorem find_grids_deterministic_order_witness :
    (find_grids (col_prefixes argsD dictD) 2
      (row_words_list argsD dictD)).Sorted (· < ·) :=
  (find_grids_deterministic_order (col_prefixes argsD dictD) 2
    (row_words_list argsD dictD) (row_words_sorted_lt argsD dictD)).2.1

/-- Claim C5 counterexample: with `use_apostrophe = false` the raw word
DON'T keeps its apostrophe, fails the A-to-Z check and is rejected
outright — it is not treated as DONT, so the claim's polarity for the
flag is inverted (the source strips apostrophes when the flag is
true). -/
theorem apostrophe_flag_counterexample :
    filter_word argsN rawDONT = none ∧
    "DONT".toList ∉ row_words_list argsN [rawDONT] := by decide

/-- Claim C5 (amended): when `use_apostrophe` is true (the default
configuration), all apostrophe characters are removed from the raw
word before any other filtering, so a word filters exactly as its
apostrophe-free form does (rather than being rejected). -/
theorem filter_word_strips_when_flag_true (args : Args) (raw : Word)
    (h : args.use_apostrophe = true) :
    filter_word args raw = filter_word args (strip_apostrophes raw) := by
  have hidem : strip_apostrophes (strip_apostrophes raw) = strip_apostrophes raw := by
    simp [strip_apostrophes, List.filter_filter]
  simp only [filter_word, h, if_true, hidem]

/-- Claim C5 witness: with the flag true, DON'T filters exactly as its
stripped form and is accepted as DONT. -/
theorem filter_word_strips_when_flag_true_witness :
    filter_word argsY rawDONT = filter_word argsY (strip_apostrophes rawDONT) ∧
    filter_word argsY rawDONT = some "DONT".toList :=
  ⟨filter_word_strips_when_flag_true argsY rawDONT rfl, by decide⟩

/-- Claim C6 counterexample: the fixed short-word allow-list in the
source has 45 entries, not 44. -/
theorem legal_small_words_has_45_entries :
    legal_small_words.length = 45 ∧ legal_small_words.length ≠ 44 := by decide

/-- Claim C6 (amended): with the restriction on, every word of length
at most 2 outside the fixed 45-entry allow-list is discarded at
index-build time: it reaches neither the row word list nor the column
word set (so it enters no prefix entry as a column word). -/
theorem short_words_filtered (args : Args) (dict : List Word) (w : Word)
    (h1 : args.restrict_small_words = true) (h2 : w.length ≤ 2)
    (h3 : w ∉ legal_small_words) :
    w ∉ row_words_list args dict ∧ w ∉ col_words args dict := by
  constructor
  · intro hw
    obtain ⟨⟨raw, _, hr⟩, _⟩ := mem_row_words.mp hw
    exact h3 (filter_word_small hr h1 h2)
  · intro hw
    obtain ⟨⟨raw, _, hr⟩, _⟩ := mem_col_words.mp hw
    exact h3 (filter_word_small hr h1 h2)

/-- Claim C6 witness: XZ (length 2, outside the allow-list) never
reaches the row word list when the restriction is on and width is 2. -/
theorem short_words_filtered_witness :
    "XZ".toList ∉ row_words_list argsXZ ["XZ".toList] :=
  (short_words_filtered argsXZ ["XZ".toList] "XZ".toList
    rfl (by decide) (by decide)).1

/-- Claim C8: the modelled process exits non-zero exactly when argument
parsing or the dictionary stream fails; on a readable dictionary the
word-list builder always returns its (possibly empty) pair, and the
process exits 0 — an empty row word list or zero found grids is not an
error. -/
theorem main_exit_spec :
    (∀ (p : Option Args) (d : Option (List Word)),
      main_exit p d ≠ 0 ↔ p = none ∨ d = none) ∧
    (∀ (args : Args) (lines : List Word),
      get_word_lists args (some lines) =
        some (row_words_list args lines, col_prefixes args lines)) ∧
    (∀ (args : Args) (lines : List Word),
      main_exit (some args) (some lines) = 0) := by
  refine ⟨?_, fun args lines => rfl, fun args lines => rfl⟩
  intro p d
  cases p <;> cases d <;> simp [main_exit, get_word_lists]

/-- Claim C9, evaluated at the failing input: the positive dimensions
65536 and 65536 have mathematical product 2^32 > 26, yet the dimension
check accepts the configuration because the C `int` product wraps
around to 0 — so a configuration whose width times height exceeds 26
is not always rejected, contradicting the source's own help text
(width times height must be at most 26). -/
theorem check_dims_overflow_accepted :
    check_dims 65536 65536 = some (65536, 65536) ∧
    (26 : Int) < 65536 * 65536 ∧
    to_int32 (65536 * 65536) = 0 := by decide

/-- In the absence of `int` overflow the dimension check does behave as
documented: positive dimensions with a product above 26 (but within
`int` range) are rejected. -/
theorem check_dims_rejects_without_overflow (w h : Int)
    (h1 : 0 < w) (h2 : 0 < h) (h3 : 26 < w * h) (h4 : w * h ≤ 2 ^ 31 - 1) :
    check_dims w h = none := by
  have hto : to_int32 (w * h) = w * h := by
    unfold to_int32
    have hmod : (w * h + 2 ^ 31) % 2 ^ 32 = w * h + 2 ^ 31 :=
      Int.emod_eq_of_lt (by omega) (by omega)
    omega
  unfold check_dims
  rw [if_neg (by omega), if_neg (by omega), if_pos (by omega)]

/-- Reading one character per placed row succeeds when the position is
in range for every row. -/
theorem get_col_opt_eq {i : Nat} : ∀ {rows : List Word},
    (∀ r ∈ rows, i < r.length) →
    get_col_opt rows i = some (colstr rows i) := by
  intro rows
  induction rows with
  | nil => intro _; rfl
  | cons r rest ih =>
    intro hr
    have hi : i < r.length := hr r (by simp)
    have h1 : r.get? i = some (r.getD i 'A') := by
      rw [List.get?_eq_getElem?, List.getElem?_eq_getElem hi,
        List.getD_eq_getElem?_getD, List.getElem?_eq_getElem hi]
      rfl
    have h2 := ih (fun t ht => hr t (by simp [ht]))
    simp only [get_col_opt]
    rw [h1, h2]
    rfl

/-- The checked column test performs no out-of-bounds access and agrees
with the unchecked one, whenever the probed positions are in range for
the candidate and all placed rows, and the prefix index has an entry at
`rows.length`. -/
theorem check_cols_opt_eq {cps : List (List Word)} {rows : List Word} {w : Word}
    (hr : ∀ r ∈ rows, ∀ j, j < w.length → j < r.length)
    (hcps : rows.length < cps.length) :
    ∀ is : List Nat, (∀ i ∈ is, i < w.length) →
      check_cols_opt cps rows w is =
        some (is.all (fun i =>
          decide (colstr rows i ++ [w.getD i 'A'] ∈ cps.getD rows.length []))) := by
  intro is
  induction is with
  | nil => intro _; rfl
  | cons i is ih =>
    intro his
    have hi : i < w.length := his i (by simp)
    have hcol : get_col_opt rows i = some (colstr rows i) :=
      get_col_opt_eq (fun r hrr => hr r hrr i hi)
    have hwi : w.get? i = some (w.getD i 'A') := by
      rw [List.get?_eq_getElem?, List.getElem?_eq_getElem hi,
        List.getD_eq_getElem?_getD, List.getElem?_eq_getElem hi]
      rfl
    have hclen : (colstr rows i ++ [w.getD i 'A']).length - 1 = rows.length := by
      simp [colstr]
    have hentry : cps.get? ((colstr rows i ++ [w.getD i 'A']).length - 1) =
        some (cps.getD rows.length []) := by
      rw [hclen, List.get?_eq_getElem?, List.getElem?_eq_getElem hcps,
        List.getD_eq_getElem?_getD, List.getElem?_eq_getElem hcps]
      rfl
    have htl := ih (fun j hj => his j (by simp [hj]))
    simp only [check_cols_opt]
    rw [hcol]
    dsimp only
    rw [hwi]
    dsimp only
    rw [hentry]
    dsimp only
    rw [List.all_cons]
    by_cases hmem : colstr rows i ++ [w.getD i 'A'] ∈ cps.getD rows.length []
    · rw [if_pos hmem, htl, decide_eq_true hmem, Bool.true_and]
    · rw [if_neg hmem, decide_eq_false hmem, Bool.false_and]

/-- The column check written with the constant entry index
`rows.length` (the partial column always has `rows.length + 1`
characters). -/
theorem check_word_eq {cps : List (List Word)} {rows : List Word} {w : Word} :
    check_word cps rows w =
      (List.range w.length).all (fun i =>
        decide (colstr rows i ++ [w.getD i 'A'] ∈ cps.getD rows.length [])) := by
  simp [check_word, colstr]

/-- The fully checked column test for one candidate word. -/
theorem check_word_opt_eq {cps : List (List Word)} {rows : List Word} {w : Word}
    (hr : ∀ r ∈ rows, ∀ j, j < w.length → j < r.length)
    (hcps : rows.length < cps.length) :
    check_word_opt cps rows w = some (check_word cps rows w) := by
  rw [check_word_opt, check_word_eq,
    check_cols_opt_eq hr hcps (List.range w.length)
      (fun i hi => List.mem_range.mp hi)]

/-- Checked sequencing agrees with `flatMap` when no element fails. -/
theorem option_flat_map_eq_some {α β : Type} {f : α → Option (List β)}
    {g : α → List β} :
    ∀ {l : List α}, (∀ a ∈ l, f a = some (g a)) →
      option_flat_map f l = some (l.flatMap g) := by
  intro l
  induction l with
  | nil => intro _; rfl
  | cons a as ih =>
    intro h
    have h1 : f a = some (g a) := h a (by simp)
    have h2 := ih (fun b hb => h b (by simp [hb]))
    simp [option_flat_map, h1, h2]

/-- Filtering before `flatMap` is `flatMap` with an empty contribution
from the filtered-out elements. -/
theorem filter_flatMap_eq {α β : Type} {p : α → Bool} {f : α → List β} :
    ∀ l : List α, (l.filter p).flatMap f =
      l.flatMap (fun a => if p a then f a else []) := by
  intro l
  induction l with
  | nil => rfl
  | cons a as ih =>
    by_cases hp : p a <;> simp [List.filter_cons, hp, ih]

/-- Safety invariant of the search: starting from placed rows of the
common candidate length, with the prefix index reaching the remaining
depth, every container access of every reachable recursive call is in
bounds, so the checked search computes `some` of the unchecked one. -/
theorem find_grids_opt_eq {cps : List (List Word)} {height width : Nat}
    (hcps : cps.length = height) :
    ∀ fuel (wl rows : List Word),
      (∀ w ∈ wl, w.length = width) → (∀ r ∈ rows, r.length = width) →
      rows.length + fuel = height → 1 ≤ fuel →
      find_grids_opt cps height fuel wl rows =
        some (find_grids_aux cps height fuel wl rows) := by
  intro fuel
  induction fuel with
  | zero => intro wl rows _ _ _ h1; omega
  | succ fuel ih =>
    intro wl rows hwl hrows hfuel _
    simp only [find_grids_opt, find_grids_aux]
    rw [filter_flatMap_eq]
    apply option_flat_map_eq_some
    intro w hw
    have hcwo : check_word_opt cps rows w = some (check_word cps rows w) := by
      apply check_word_opt_eq
      · intro r hrr j hj
        rw [hrows r hrr]
        rw [hwl w hw] at hj
        exact hj
      · omega
    rw [hcwo]
    cases hc : check_word cps rows w with
    | false => simp
    | true =>
      simp only [if_true]
      by_cases hd : rows.length = height - 1
      · rw [if_pos hd, if_pos hd]
      · rw [if_neg hd, if_neg hd]
        apply ih
        · intro t ht
          exact hwl t (mem_reduce_list.mp ht).1
        · intro r hrr
          rcases List.mem_append.mp hrr with hrr | hrr
          · exact hrows r hrr
          · rw [List.mem_singleton.mp hrr]; exact hwl w hw
        · simp only [List.length_append, List.length_singleton]; omega
        · omega

/-- Claim C10: under the preconditions that the prefix index has
exactly `height` entries (`height ≥ 1`), every candidate word has
length `width`, and the initial rows sequence is empty, every container
access performed in any reachable recursive call of the search —
`row[i]`, `word[i]` and `col_prefixes[col.size() - 1]` — is in bounds:
the fully bounds-checked search returns `some` of the unchecked
search's result instead of the out-of-bounds marker. -/
theorem find_grids_memory_safe (cps : List (List Word)) (height width : Nat)
    (wl : List Word) (h1 : cps.length = height) (h2 : 1 ≤ height)
    (h3 : ∀ w ∈ wl, w.length = width) :
    find_grids_opt cps height height wl [] =
      some (find_grids cps height wl) := by
  unfold find_grids
  exact find_grids_opt_eq h1 height wl [] h3 (by simp) (by simp) h2

/-- Claim C10 witness: on the concrete 2-by-2 inputs the checked search
performs no out-of-bounds access. -/
theorem find_grids_memory_safe_witness :
    find_grids_opt (col_prefixes argsD dictD) 2 2 (row_words_list argsD dictD) [] =
      some (find_grids (col_prefixes argsD dictD) 2 (row_words_list argsD dictD)) :=
  find_grids_memory_safe (col_prefixes argsD dictD) 2 2
    (row_words_list argsD dictD) (by decide) (by decide) (by decide)

end WordGrid
